import Mathlib

/-
  Verification of the expression-engine core of the TUI calculator
  (src/tui_calc.c) against its specification.

  Embedding conventions.
  The C program computes with IEEE-754 doubles.  The embedding uses an
  idealised value domain: a double is either a finite value, represented
  exactly by a rational number, or NaN.  Consequences of this idealisation,
  each noted at the definition it touches:
    - rounding of decimal literals and of arithmetic is not modelled
      (arithmetic is exact on rationals);
    - overflow of finite arithmetic to an infinity is not modelled, so the
      Inf values a C double can carry do not appear; NaN is modelled where
      the C standard mandates it (asin/acos outside [-1,1], NaN propagation);
    - values of the transcendental library functions at points inside their
      domains are taken from an abstract oracle (MathOracle), since the C
      code delegates them to libm; every domain check and error path around
      those calls is modelled concretely.
  Fallible C functions (int return + out-parameter + error message buffer)
  become Except-valued functions; the distinct snprintf message sites of the
  C code become distinct constructors of CalcErr.  The global variable table
  g_vars becomes an explicit Store value threaded through the functions that
  the C code lets mutate it.
-/

set_option autoImplicit false

attribute [local semireducible] Rat.add Rat.mul Rat.sub Rat.inv Rat.ofScientific

deriving instance DecidableEq for Except

namespace TuiCalc

/-! ## The value domain -/

/-- Idealised IEEE-754 double: a finite value represented exactly as a
rational, or NaN.  Infinities are not modelled (see the file header). -/
inductive FP where
  | fin (q : ℚ)
  | nan
deriving DecidableEq, Repr

/-- Addition on doubles; NaN propagates (overflow to Inf idealised away). -/
def addFP : FP → FP → FP
  | .fin a, .fin b => .fin (a + b)
  | _, _ => .nan

/-- Subtraction on doubles; NaN propagates. -/
def subFP : FP → FP → FP
  | .fin a, .fin b => .fin (a - b)
  | _, _ => .nan

/-- Multiplication on doubles; NaN propagates. -/
def mulFP : FP → FP → FP
  | .fin a, .fin b => .fin (a * b)
  | _, _ => .nan

/-- Division on doubles; NaN propagates.  Division of a finite value by zero
would give an infinity or NaN in C; every call site of the program guards the
divisor against exact zero, so the zero case (mapped to NaN here) is inert. -/
def divFP : FP → FP → FP
  | .fin a, .fin b => if b = 0 then .nan else .fin (a / b)
  | _, _ => .nan

/-- Negation on doubles; the negation of NaN stays NaN. -/
def negFP : FP → FP
  | .fin a => .fin (-a)
  | .nan => .nan

/-- Comparison x < y on doubles: false whenever an operand is NaN. -/
def fpLt : FP → FP → Bool
  | .fin a, .fin b => a < b
  | _, _ => false

/-- Comparison x <= y on doubles: false whenever an operand is NaN. -/
def fpLe : FP → FP → Bool
  | .fin a, .fin b => a ≤ b
  | _, _ => false

/-- Equality comparison x == y on doubles: false whenever an operand is NaN
(in particular NaN == NaN is false, as in C). -/
def fpEq : FP → FP → Bool
  | .fin a, .fin b => a = b
  | _, _ => false

/-- Absolute value (C fabs); fabs of NaN is NaN. -/
def fabsFP : FP → FP
  | .fin a => .fin |a|
  | .nan => .nan

/-- Finiteness test (C isfinite): true exactly on finite values.  In the
idealised domain the non-finite values collapse to NaN. -/
def isFiniteF : FP → Bool
  | .fin _ => true
  | .nan => false

/-! ## Angle mode and the libm oracle -/

/-- Angle mode flag of the calculator (C AngleMode). -/
inductive AngleMode where
  | rad
  | deg
deriving DecidableEq, Repr

/-- Value of the C constant M_PI taken as the exact value of its decimal
literal 3.14159265358979323846 (the rounding of that literal to a double is
idealised away).  Used only by the degree-mode angle conversions. -/
def piQ : ℚ := 314159265358979323846 / 100000000000000000000

/-- Conversion to radians (C to_radian) on a finite value. -/
def toRadQ (m : AngleMode) (q : ℚ) : ℚ :=
  match m with
  | .deg => q * piQ / 180
  | .rad => q

/-- Conversion from radians (C from_radian) on a finite value. -/
def fromRadQ (m : AngleMode) (q : ℚ) : ℚ :=
  match m with
  | .deg => q * 180 / piQ
  | .rad => q

/-- Conversion from radians lifted to the value domain; NaN propagates. -/
def fromRadF (m : AngleMode) : FP → FP
  | .nan => .nan
  | .fin q => .fin (fromRadQ m q)

/-- Abstract interface to libm: the values of the transcendental functions at
points inside their domains.  The calculator's own code never depends on these
values, only on the domain checks and error paths around them, which are
modelled concretely; so they are kept abstract. -/
structure MathOracle where
  sinQ : ℚ → ℚ
  cosQ : ℚ → ℚ
  tanQ : ℚ → ℚ
  asinQ : ℚ → ℚ
  acosQ : ℚ → ℚ
  atanQ : ℚ → ℚ
  sqrtQ : ℚ → ℚ
  lnQ : ℚ → ℚ
  log10Q : ℚ → ℚ
  expQ : ℚ → ℚ
  powQ : ℚ → ℚ → ℚ

/-- A concrete oracle instance, used only to instantiate theorems at concrete
inputs; the values are arbitrary because no claim depends on them. -/
def defaultOracle : MathOracle where
  sinQ := fun _ => 0
  cosQ := fun _ => 0
  tanQ := fun _ => 0
  asinQ := fun _ => 0
  acosQ := fun _ => 0
  atanQ := fun _ => 0
  sqrtQ := fun _ => 0
  lnQ := fun _ => 0
  log10Q := fun _ => 0
  expQ := fun _ => 0
  powQ := fun _ _ => 0

/-- Evaluation context: the libm oracle together with the two pieces of
process-wide state the evaluator reads but never writes: the angle mode
g_mode and the last-result register g_last_result. -/
structure EvalEnv where
  oracle : MathOracle
  mode : AngleMode
  lastResult : FP

/-! ## Errors -/

/-- Error outcomes of the core.  One constructor per distinct snprintf
message site of the C code (plus outOfFuel, an artifact of the termination
encoding of the lexer that cannot occur with the fuel the entry point
supplies). -/
inductive CalcErr where
  | invalidNumber
  | numberOutOfRange
  | unrecognizedChar (c : Char)
  | mismatchedComma
  | mismatchedParen
  | stackOverflow
  | undefinedVariable (n : String)
  | missingOperand
  | missingOperandUnary
  | missingOperandBinary
  | factorialDomain
  | divisionByZero
  | powOpDomain
  | powFnDomain
  | sqrtDomain
  | lnDomain
  | logDomain
  | unknownFunction
  | unknownMultiFunction
  | funcArgMissing
  | powArgMissing
  | funcArityUnsupported
  | unknownOp
  | badRpnToken
  | malformedExpression (leftover : ℕ)
  | zeroOrNonFiniteDerivative (x : FP)
  | didNotConverge (maxit : ℤ)
  | outOfFuel
deriving DecidableEq, Repr

/-! ## The variable store -/

/-- One slot of the fixed variable table (C VarItem). -/
structure VarItem where
  name : String
  value : FP
  inUse : Bool
deriving DecidableEq, Repr

/-- The variable table: the MAX_VARS = 64 slots of the C array g_vars,
as a list.  The functions below scan it front to back exactly as the C
loops scan indices 0..MAX_VARS-1. -/
abbrev Store := List VarItem

/-- Name truncation performed by strncpy(dst, name, NAME_LEN-1) when a name
is written into a slot: at most 15 characters are kept. -/
def truncName (n : String) : String := ⟨n.data.take 15⟩

/-- Lookup (C var_find_index followed by reading the value, i.e. var_get):
the value of the first in-use slot whose name matches exactly. -/
def varGet : Store → String → Option FP
  | [], _ => none
  | s :: r, n => if s.inUse && s.name = n then some s.value else varGet r n

/-- Update branch of C var_set: overwrite the value of the first in-use slot
whose name matches, leaving the name in place. -/
def varUpdate : Store → String → FP → Store
  | [], _, _ => []
  | s :: r, n, v =>
    if s.inUse && s.name = n then { s with value := v } :: r
    else s :: varUpdate r n v

/-- Insert branch of C var_set: fill the first free slot with the (truncated)
name and the value.  If no slot is free the store is unchanged (C var_set
returns 0 in that case; the callers modelled here ignore that flag). -/
def varInsert : Store → String → FP → Store
  | [], _, _ => []
  | s :: r, n, v =>
    if s.inUse then s :: varInsert r n v
    else { name := truncName n, value := v, inUse := true } :: r

/-- C var_set: update the existing binding if there is one, otherwise fill
the first free slot. -/
def varSet (st : Store) (n : String) (v : FP) : Store :=
  if (varGet st n).isSome then varUpdate st n v else varInsert st n v

/-- C var_del: mark the first in-use slot with a matching name as free and
clear its name; the stale value stays in the slot, as in the C code. -/
def varDel : Store → String → Store
  | [], _ => []
  | s :: r, n =>
    if s.inUse && s.name = n then { s with name := "", inUse := false } :: r
    else s :: varDel r n

/-- Whether a var_set on this store with this name will leave the name bound:
either the name is already bound or a free slot exists. -/
def canBind (st : Store) (n : String) : Bool :=
  (varGet st n).isSome || st.any (fun s => !s.inUse)

/-- The store at program start: MAX_VARS zero-initialised free slots. -/
def initStore : Store :=
  List.replicate 64 { name := "", value := .fin 0, inUse := false }

/-- Concrete environment used to instantiate theorems: arbitrary oracle,
radian mode, last result 0 (the state right after program start). -/
def defaultEnv : EvalEnv :=
  { oracle := defaultOracle, mode := .rad, lastResult := .fin 0 }

/-! ## Tokens -/

/-- Operator kinds (C OpKind). -/
inductive OpKind where
  | add
  | sub
  | mul
  | div
  | pow
  | unaryMinus
  | fact
  | percent
deriving DecidableEq, Repr

/-- Tokens (C CalcToken, with the tag-dependent fields made precise). -/
inductive CalcTok where
  | num (v : ℚ)
  | op (k : OpKind)
  | lparen
  | rparen
  | comma
  | func (name : String) (arity : ℕ)
  | ident (name : String)
deriving DecidableEq, Repr

/-- Operator precedence table (C precedence_local). -/
def precedenceOp : OpKind → ℕ
  | .fact | .percent => 5
  | .unaryMinus => 4
  | .pow => 3
  | .mul | .div => 2
  | .add | .sub => 1

/-- Right-associative operators (C is_right_assoc_local). -/
def isRightAssoc : OpKind → Bool
  | .pow | .unaryMinus => true
  | _ => false

/-- Postfix operators (C is_postfix_local). -/
def isPostfixOp : OpKind → Bool
  | .fact | .percent => true
  | _ => false

/-! ## Lexer -/

/-- Characters that may start or continue an identifier or function name
(C is_func_char_local, i.e. isalpha in the C locale, or underscore),
spelled out over ASCII codes. -/
def isFuncChar (c : Char) : Bool :=
  (65 ≤ c.toNat && c.toNat ≤ 90) || (97 ≤ c.toNat && c.toNat ≤ 122) || c = '_'

/-- ASCII decimal digit test. -/
def isDigitChar (c : Char) : Bool := 48 ≤ c.toNat && c.toNat ≤ 57

/-- ASCII lower-casing of one character (C tolower in the C locale). -/
def lowerChar (c : Char) : Char :=
  if 65 ≤ c.toNat && c.toNat ≤ 90 then Char.ofNat (c.toNat + 32) else c

/-- Value of a digit character. -/
def digitVal (c : Char) : ℕ := c.toNat - 48

/-- Value of a digit run read as a base-10 natural number. -/
def digitsToNat (ds : List Char) : ℕ :=
  ds.foldl (fun a c => 10 * a + digitVal c) 0

/-- The function registry (C is_func_name_local): name to arity. -/
def funcArity (s : String) : Option ℕ :=
  if s = "sin" ∨ s = "cos" ∨ s = "tan" ∨ s = "sqrt" ∨ s = "ln" ∨ s = "log" ∨
     s = "abs" ∨ s = "exp" ∨ s = "asin" ∨ s = "acos" ∨ s = "atan" then some 1
  else if s = "pow" then some 2
  else none

/-- Model of the strtod call the lexer makes on a suffix that starts with a
digit or a dot: parse digits, an optional fractional part, and an optional
exponent (consumed only when at least one exponent digit follows), returning
the exact rational value and the number of characters consumed, or none when
no digits are consumed.  Idealisations: the value is exact (no rounding, so
the ERANGE overflow path of the C code is unreachable here), and the C99
hexadecimal and inf/nan literal forms are not modelled (the calculator's
lexer only reaches strtod on a digit or dot, and no claim involves them). -/
def strtodParse (cs : List Char) : Option (ℚ × ℕ) :=
  let ip := cs.takeWhile isDigitChar
  let rest1 := cs.drop ip.length
  let fpr : List Char × List Char × ℕ :=
    match rest1 with
    | '.' :: r => (r.takeWhile isDigitChar, r.drop (r.takeWhile isDigitChar).length,
                   (r.takeWhile isDigitChar).length + 1)
    | _ => ([], rest1, 0)
  let fp := fpr.1
  let rest2 := fpr.2.1
  let fracLen := fpr.2.2
  if ip.isEmpty && fp.isEmpty then none
  else
    let mant : ℚ := (digitsToNat ip : ℚ) + (digitsToNat fp : ℚ) / 10 ^ fp.length
    let consumed := ip.length + fracLen
    match rest2 with
    | [] => some (mant, consumed)
    | c :: r =>
      if c = 'e' ∨ c = 'E' then
        let sgr : ℤ × List Char × ℕ :=
          match r with
          | '+' :: rr => (1, rr, 1)
          | '-' :: rr => (-1, rr, 1)
          | _ => (1, r, 0)
        let ed := sgr.2.1.takeWhile isDigitChar
        if ed.isEmpty then some (mant, consumed)
        else some (mant * (10 : ℚ) ^ (sgr.1 * (digitsToNat ed : ℤ)), consumed + 1 + sgr.2.2 + ed.length)
      else some (mant, consumed)

/-- Category of the previously emitted token, tracked by the lexer for the
unary-minus disambiguation (C variable prev of type CalcTokType). -/
inductive PrevT where
  | num
  | oper
  | lpar
  | rpar
  | fn
  | com
  | idn
deriving DecidableEq, Repr

/-- Main lexer loop (C tokenize_local), written with explicit fuel; every
iteration consumes at least one character, so the entry point's fuel of
length + 1 can never run out and the outOfFuel branch is unreachable.
Branch order follows the C loop: whitespace (any byte up to 32), number,
identifier or function chunk (at most 15 characters are consumed in one
iteration, which SPLITS a longer run across several tokens), parentheses,
comma, operators with the unary-minus lookback, unrecognized character. -/
def tokenizeGo : ℕ → List Char → PrevT → List CalcTok → Except CalcErr (List CalcTok)
  | 0, _, _, _ => .error .outOfFuel
  | fuel + 1, cs, prev, acc =>
    match cs with
    | [] => .ok acc.reverse
    | c :: rest =>
      if c.toNat ≤ 32 then tokenizeGo fuel rest prev acc
      else if isDigitChar c || c = '.' then
        match strtodParse (c :: rest) with
        | none => .error .invalidNumber
        | some (v, len) => tokenizeGo fuel ((c :: rest).drop len) .num (.num v :: acc)
      else if isFuncChar c then
        let chunk := ((c :: rest).takeWhile isFuncChar).take 15
        let name : String := ⟨chunk.map lowerChar⟩
        match funcArity name with
        | some ar => tokenizeGo fuel ((c :: rest).drop chunk.length) .fn (.func name ar :: acc)
        | none => tokenizeGo fuel ((c :: rest).drop chunk.length) .idn (.ident name :: acc)
      else if c = '(' then tokenizeGo fuel rest .lpar (.lparen :: acc)
      else if c = ')' then tokenizeGo fuel rest .rpar (.rparen :: acc)
      else if c = ',' then tokenizeGo fuel rest .com (.comma :: acc)
      else if c = '+' then tokenizeGo fuel rest .oper (.op .add :: acc)
      else if c = '-' then
        let k := if prev = PrevT.oper ∨ prev = PrevT.lpar ∨ prev = PrevT.com ∨ acc.isEmpty
                 then OpKind.unaryMinus else OpKind.sub
        tokenizeGo fuel rest .oper (.op k :: acc)
      else if c = '*' then tokenizeGo fuel rest .oper (.op .mul :: acc)
      else if c = '/' then tokenizeGo fuel rest .oper (.op .div :: acc)
      else if c = '^' then tokenizeGo fuel rest .oper (.op .pow :: acc)
      else if c = '!' then tokenizeGo fuel rest .oper (.op .fact :: acc)
      else if c = '%' then tokenizeGo fuel rest .oper (.op .percent :: acc)
      else .error (.unrecognizedChar c)

/-- Lexer on a character list: run the loop with prev initialised to the
operator category (as the C code does) and sufficient fuel. -/
def tokenizeList (cs : List Char) : Except CalcErr (List CalcTok) :=
  tokenizeGo (cs.length + 1) cs .oper []

/-- Lexer entry point (C tokenize_local). -/
def tokenize (s : String) : Except CalcErr (List CalcTok) :=
  tokenizeList s.data

/-! ## Parser: infix to RPN (C to_rpn_local, shunting yard) -/

/-- Operator arrival: pop stacked operators to the output while the
precedence/associativity condition of the C while loop holds.  Returns the
remaining stack and the grown output accumulator. -/
def popOps (tk : OpKind) : List CalcTok → List CalcTok → List CalcTok × List CalcTok
  | [], out => ([], out)
  | s :: stack, out =>
    match s with
    | .op o2 =>
      if (!isRightAssoc tk && precedenceOp tk ≤ precedenceOp o2) ||
         (isRightAssoc tk && precedenceOp tk < precedenceOp o2)
      then popOps tk stack (s :: out)
      else (s :: stack, out)
    | _ => (s :: stack, out)

/-- Comma arrival: pop operators to the output until a left parenthesis is
on top (kept there); none signals the mismatched-comma error. -/
def popToLparen : List CalcTok → List CalcTok → Option (List CalcTok × List CalcTok)
  | [], _ => none
  | s :: stack, out =>
    match s with
    | .lparen => some (CalcTok.lparen :: stack, out)
    | _ => popToLparen stack (s :: out)

/-- Right-parenthesis arrival: pop operators to the output until a left
parenthesis is found and discarded; then pop a function token to the output
if one is exposed.  none signals the mismatched-parenthesis error. -/
def popParen : List CalcTok → List CalcTok → Option (List CalcTok × List CalcTok)
  | [], _ => none
  | s :: stack, out =>
    match s with
    | .lparen =>
      match stack with
      | CalcTok.func f a :: stack2 => some (stack2, CalcTok.func f a :: out)
      | _ => some (stack, out)
    | _ => popParen stack (s :: out)

/-- End of input: drain the stack to the output; a leftover parenthesis
signals the mismatched-parenthesis error (none). -/
def drainOps : List CalcTok → List CalcTok → Option (List CalcTok)
  | [], out => some out
  | s :: stack, out =>
    match s with
    | .lparen => none
    | .rparen => none
    | _ => drainOps stack (s :: out)

/-- Shunting-yard main loop (C to_rpn_local); the output accumulator is kept
reversed and flipped at the end. -/
def rpnGo : List CalcTok → List CalcTok → List CalcTok → Except CalcErr (List CalcTok)
  | [], stack, out =>
    match drainOps stack out with
    | none => .error .mismatchedParen
    | some out2 => .ok out2.reverse
  | t :: ts, stack, out =>
    match t with
    | .num v => rpnGo ts stack (.num v :: out)
    | .ident n => rpnGo ts stack (.ident n :: out)
    | .func f a => rpnGo ts (.func f a :: stack) out
    | .op k =>
      let po := popOps k stack out
      rpnGo ts (.op k :: po.1) po.2
    | .lparen => rpnGo ts (.lparen :: stack) out
    | .comma =>
      match popToLparen stack out with
      | none => .error .mismatchedComma
      | some (stack2, out2) => rpnGo ts stack2 out2
    | .rparen =>
      match popParen stack out with
      | none => .error .mismatchedParen
      | some (stack2, out2) => rpnGo ts stack2 out2

/-- Parser entry point (C to_rpn_local). -/
def toRpn (tks : List CalcTok) : Except CalcErr (List CalcTok) :=
  rpnGo tks [] []

/-! ## Evaluator (C eval_rpn_local) -/

/-- C89 replacement round (C round_local): floor(x+0.5) for nonnegative x,
ceil(x-0.5) otherwise. -/
def roundQ (x : ℚ) : ℚ :=
  if 0 ≤ x then (⌊x + 1/2⌋ : ℤ) else (⌈x - 1/2⌉ : ℤ)

/-- Near-integer test (C nearly_integer_local) with the tolerance 1e-9 taken
as the exact rational 1/10^9 (rounding of the C literal idealised away). -/
def nearlyInt (x : ℚ) : Bool := |x - roundQ x| < 1 / 1000000000

/-- Domain check of the factorial operator (C factorial_ok_local): the
operand must be within 1e-9 of an integer and lie in [0, 170].  A NaN
operand fails the near-integer test, as in C. -/
def factorialOk : FP → Bool
  | .nan => false
  | .fin q => if !nearlyInt q then false else if q < 0 ∨ 170 < q then false else true

/-- Factorial value (C factorial_val_local computes exp(lgamma(n+1)); this is
idealised to the exact value Gamma(n+1) = n! of the rounded operand). -/
def factValF : FP → FP
  | .nan => .nan
  | .fin q => .fin ((Nat.factorial (roundQ q).num.toNat : ℕ) : ℚ)

/-- Model of the C library pow together with the errno check the calculator
performs after it (errno == EDOM || errno == ERANGE means failure, none
here).  Following C99 Annex F: pow(x, 0) = 1 and pow(1, y) = 1 even for NaN
arguments; otherwise NaN propagates without setting errno; an integer
exponent applies exact integer power (negative bases allowed), with the
0^negative pole an ERANGE failure; a non-integer exponent with negative base
is an EDOM failure; otherwise the (positive-base) value comes from the
oracle.  Overflow ERANGE is idealised away (exact arithmetic). -/
def powCore (o : MathOracle) (a b : FP) : Option FP :=
  if b = FP.fin 0 then some (.fin 1)
  else if a = FP.fin 1 then some (.fin 1)
  else
    match a, b with
    | .nan, _ => some .nan
    | _, .nan => some .nan
    | .fin qa, .fin qb =>
      if qa = 0 ∧ qb < 0 then none
      else if qb.den = 1 then some (.fin (qa ^ qb.num))
      else if qa < 0 then none
      else some (.fin (o.powQ qa qb))

/-- Binary operator dispatch of the evaluator (the switch in eval_rpn_local
after b and a are popped): Add/Sub/Mul always succeed; Div fails exactly on
an exact-zero right operand; Pow fails when pow signals EDOM/ERANGE; the
switch default (unreachable, since unary and postfix kinds are filtered
before) is the unknown-operation error. -/
def evalBinOp (o : MathOracle) (k : OpKind) (a b : FP) : Except CalcErr FP :=
  match k with
  | .add => .ok (addFP a b)
  | .sub => .ok (subFP a b)
  | .mul => .ok (mulFP a b)
  | .div => if b = FP.fin 0 then .error .divisionByZero else .ok (divFP a b)
  | .pow =>
    match powCore o a b with
    | none => .error .powOpDomain
    | some y => .ok y
  | _ => .error .unknownOp

/-- Application of sin, reading the angle mode on input; NaN propagates. -/
def sinF (env : EvalEnv) : FP → FP
  | .nan => .nan
  | .fin q => .fin (env.oracle.sinQ (toRadQ env.mode q))

/-- Application of cos, reading the angle mode on input; NaN propagates. -/
def cosF (env : EvalEnv) : FP → FP
  | .nan => .nan
  | .fin q => .fin (env.oracle.cosQ (toRadQ env.mode q))

/-- Application of tan, reading the angle mode on input; NaN propagates. -/
def tanF (env : EvalEnv) : FP → FP
  | .nan => .nan
  | .fin q => .fin (env.oracle.tanQ (toRadQ env.mode q))

/-- Application of the C library asin: NaN outside [-1, 1] (C99 Annex F),
the oracle value inside; NaN propagates.  The calculator applies it with NO
domain guard of its own. -/
def asinRadF (o : MathOracle) : FP → FP
  | .nan => .nan
  | .fin q => if q < -1 ∨ 1 < q then .nan else .fin (o.asinQ q)

/-- Application of the C library acos: NaN outside [-1, 1], the oracle value
inside; NaN propagates.  Applied with no domain guard by the calculator. -/
def acosRadF (o : MathOracle) : FP → FP
  | .nan => .nan
  | .fin q => if q < -1 ∨ 1 < q then .nan else .fin (o.acosQ q)

/-- Application of atan (total); NaN propagates. -/
def atanRadF (o : MathOracle) : FP → FP
  | .nan => .nan
  | .fin q => .fin (o.atanQ q)

/-- Application of sqrt after the x < 0 guard has passed; NaN propagates. -/
def sqrtF (o : MathOracle) : FP → FP
  | .nan => .nan
  | .fin q => .fin (o.sqrtQ q)

/-- Application of ln after the x <= 0 guard has passed; NaN propagates. -/
def lnF (o : MathOracle) : FP → FP
  | .nan => .nan
  | .fin q => .fin (o.lnQ q)

/-- Application of log10 after the x <= 0 guard has passed; NaN propagates. -/
def log10F (o : MathOracle) : FP → FP
  | .nan => .nan
  | .fin q => .fin (o.log10Q q)

/-- Application of exp (total); NaN propagates. -/
def expF (o : MathOracle) : FP → FP
  | .nan => .nan
  | .fin q => .fin (o.expQ q)

/-- Unary function dispatch of the evaluator (the strcmp chain in
eval_rpn_local for arity-1 functions, in source order).  sqrt/ln/log carry
the domain guards the C code places before the library call; asin and acos
have no guard, so out-of-domain arguments yield NaN as a success. -/
def applyFunc1 (env : EvalEnv) (name : String) (x : FP) : Except CalcErr FP :=
  if name = "sin" then .ok (sinF env x)
  else if name = "cos" then .ok (cosF env x)
  else if name = "tan" then .ok (tanF env x)
  else if name = "asin" then .ok (fromRadF env.mode (asinRadF env.oracle x))
  else if name = "acos" then .ok (fromRadF env.mode (acosRadF env.oracle x))
  else if name = "atan" then .ok (fromRadF env.mode (atanRadF env.oracle x))
  else if name = "sqrt" then
    if fpLt x (.fin 0) then .error .sqrtDomain else .ok (sqrtF env.oracle x)
  else if name = "ln" then
    if fpLe x (.fin 0) then .error .lnDomain else .ok (lnF env.oracle x)
  else if name = "log" then
    if fpLe x (.fin 0) then .error .logDomain else .ok (log10F env.oracle x)
  else if name = "abs" then .ok (fabsFP x)
  else if name = "exp" then .ok (expF env.oracle x)
  else .error .unknownFunction

/-- RPN evaluation loop (C eval_rpn_local).  The operand stack is a list
with its head the stack top; the MAX_STACK = 1024 overflow guard is applied
exactly where the C code applies it, before pushing a number or identifier
value.  The identifier "ans" resolves to the last-result register BEFORE the
variable store is consulted. -/
def evalRpnGo (env : EvalEnv) (st : Store) : List CalcTok → List FP → Except CalcErr FP
  | [], stk =>
    match stk with
    | [x] => .ok x
    | _ => .error (.malformedExpression stk.length)
  | t :: ts, stk =>
    match t with
    | .num v =>
      if 1024 ≤ stk.length then .error .stackOverflow
      else evalRpnGo env st ts (.fin v :: stk)
    | .ident n =>
      if n = "ans" then
        if 1024 ≤ stk.length then .error .stackOverflow
        else evalRpnGo env st ts (env.lastResult :: stk)
      else
        match varGet st n with
        | none => .error (.undefinedVariable n)
        | some w =>
          if 1024 ≤ stk.length then .error .stackOverflow
          else evalRpnGo env st ts (w :: stk)
    | .op k =>
      if isPostfixOp k then
        match stk with
        | [] => .error .missingOperand
        | a :: rest =>
          match k with
          | .fact =>
            if factorialOk a then evalRpnGo env st ts (factValF a :: rest)
            else .error .factorialDomain
          | _ => evalRpnGo env st ts (mulFP a (.fin (1/100)) :: rest)
      else if k = OpKind.unaryMinus then
        match stk with
        | [] => .error .missingOperandUnary
        | a :: rest => evalRpnGo env st ts (negFP a :: rest)
      else
        match stk with
        | b :: a :: rest =>
          match evalBinOp env.oracle k a b with
          | .error e => .error e
          | .ok y => evalRpnGo env st ts (y :: rest)
        | _ => .error .missingOperandBinary
    | .func name ar =>
      if ar = 1 then
        match stk with
        | [] => .error .funcArgMissing
        | x :: rest =>
          match applyFunc1 env name x with
          | .error e => .error e
          | .ok y => evalRpnGo env st ts (y :: rest)
      else if ar = 2 then
        if name ≠ "pow" then .error .unknownMultiFunction
        else
          match stk with
          | b :: a :: rest =>
            match powCore env.oracle a b with
            | none => .error .powFnDomain
            | some y => evalRpnGo env st ts (y :: rest)
          | _ => .error .powArgMissing
      else .error .funcArityUnsupported
    | _ => .error .badRpnToken

/-- Evaluator entry point (C eval_rpn_local): run the loop on an empty
operand stack; exactly one value must remain. -/
def evalRpn (env : EvalEnv) (st : Store) (rpn : List CalcTok) : Except CalcErr FP :=
  evalRpnGo env st rpn []

/-- Expression-engine facade (C eval_expr_local): lex, parse, evaluate, with
the early return on the first failing stage. -/
def evalExpr (env : EvalEnv) (st : Store) (s : String) : Except CalcErr FP :=
  match tokenize s with
  | .error e => .error e
  | .ok tks =>
    match toRpn tks with
    | .error e => .error e
    | .ok rpn => evalRpn env st rpn

/-! ## Numeric-methods layer -/

/-- Transient-binding evaluation (C eval_with_var): remember whether the
variable existed and its old value (0 when absent), bind it to x, evaluate
the expression, then restore the old value or delete the binding — in either
case before returning, whether the evaluation succeeded or failed.  Returns
the evaluation outcome together with the store as the call leaves it (the C
code mutates the global table; the result store is threaded to subsequent
calls by the functions below, as the C control flow does). -/
def evalWithVar (env : EvalEnv) (st : Store) (e v : String) (x : FP) :
    Except CalcErr FP × Store :=
  let old := (varGet st v).getD (.fin 0)
  let existed := (varGet st v).isSome
  let st1 := varSet st v x
  let r := evalExpr env st1 e
  let st2 := if existed then varSet st1 v old else varDel st1 v
  (r, st2)

/-- Central-difference derivative (C diff_center): (f(x+h) - f(x-h)) / (2h).
When either evaluation fails the C function returns NAN (leaving the error
message in the caller's buffer); the store evolves through the two calls. -/
def diffCenter (env : EvalEnv) (st : Store) (e v : String) (x : FP) (h : ℚ) :
    FP × Store :=
  let r1 := evalWithVar env st e v (addFP x (.fin h))
  match r1.1 with
  | .error _ => (.nan, r1.2)
  | .ok f1 =>
    let r2 := evalWithVar env r1.2 e v (subFP x (.fin h))
    match r2.1 with
    | .error _ => (.nan, r2.2)
    | .ok f2 => (divFP (subFP f1 f2) (.fin (2 * h)), r2.2)

/-- Newton iteration loop of C solve_newton, with the loop counter as fuel.
Per iteration: evaluate f(x) (an evaluation error propagates); compute the
central-difference derivative with the fixed step 1e-6 (taken as the exact
rational 1/10^6); fail if it is non-finite or exactly zero; update
x := x - f(x)/f'(x); succeed with the UPDATED x when abs(f(x)) of the OLD x
is below the tolerance; otherwise continue.  Exhausted fuel is the
did-not-converge failure carrying maxit. -/
def newtonGo (env : EvalEnv) (e v : String) (tol : ℚ) (maxit : ℤ) :
    ℕ → FP → Store → Except CalcErr FP × Store
  | 0, _, st => (.error (.didNotConverge maxit), st)
  | k + 1, x, st =>
    let r := evalWithVar env st e v x
    match r.1 with
    | .error er => (.error er, r.2)
    | .ok fx =>
      let ds := diffCenter env r.2 e v x (1 / 1000000)
      if ds.1 = FP.nan ∨ ds.1 = FP.fin 0 then
        (.error (.zeroOrNonFiniteDerivative x), ds.2)
      else
        let xn := subFP x (divFP fx ds.1)
        if fpLt (fabsFP fx) (.fin tol) then (.ok xn, ds.2)
        else newtonGo env e v tol maxit k xn ds.2

/-- Newton root solver entry point (C solve_newton): run up to maxit
iterations from the start value x0 (a nonpositive maxit runs zero
iterations, as the C for loop does). -/
def solveNewton (env : EvalEnv) (st : Store) (e v : String) (x0 : ℚ)
    (maxit : ℤ) (tol : ℚ) : Except CalcErr FP × Store :=
  newtonGo env e v tol maxit maxit.toNat (.fin x0) st

/-- Segment-count coercion of C integ_simpson: n becomes 200 when n <= 0,
and is bumped to the next even number when odd. -/
def simpsonSegN (n : ℤ) : ℤ :=
  let n1 := if n ≤ 0 then 200 else n
  if n1 % 2 ≠ 0 then n1 + 1 else n1

/-- Interior-point loop of C integ_simpson over the indices 1..n-1:
evaluate the integrand at a + i*h and accumulate 4*f for odd i and 2*f for
even i; the first evaluation failure aborts. -/
def simpLoop (env : EvalEnv) (e v : String) (a h : ℚ) :
    List ℕ → Store → FP → Except CalcErr FP × Store
  | [], st, s => (.ok s, st)
  | i :: is, st, s =>
    let r := evalWithVar env st e v (.fin (a + (i : ℚ) * h))
    match r.1 with
    | .error er => (.error er, r.2)
    | .ok fx =>
      simpLoop env e v a h is r.2
        (addFP s (if i % 2 = 1 then mulFP (.fin 4) fx else mulFP (.fin 2) fx))

/-- Composite Simpson integrator (C integ_simpson): coerce the segment
count, set h = (b-a)/n, sum f(a), the weighted interior points, and f(b),
and scale by h/3 (computed as (s*h)/3, in the C expression order). -/
def integSimpson (env : EvalEnv) (st : Store) (e v : String) (a b : ℚ)
    (n : ℤ) : Except CalcErr FP × Store :=
  let N : ℕ := (simpsonSegN n).toNat
  let h : ℚ := (b - a) / (N : ℚ)
  let r1 := evalWithVar env st e v (.fin a)
  match r1.1 with
  | .error er => (.error er, r1.2)
  | .ok fa =>
    let r2 := simpLoop env e v a h (List.range' 1 (N - 1)) r1.2 fa
    match r2.1 with
    | .error er => (.error er, r2.2)
    | .ok s =>
      let r3 := evalWithVar env r2.2 e v (.fin b)
      match r3.1 with
      | .error er => (.error er, r3.2)
      | .ok fb => (.ok (divFP (mulFP (addFP s fb) (.fin h)) (.fin 3)), r3.2)

/-- Width clamping of C plot_ascii: W becomes 60 when nonpositive, then is
capped at 120. -/
def plotClampW (w : ℤ) : ℤ :=
  let w1 := if w ≤ 0 then 60 else w
  if w1 > 120 then 120 else w1

/-- Sample x positions of C plot_ascii: xmin + (xmax-xmin)*i/(W-1) for
i = 0..W-1.  For W = 1 the C expression divides 0 by 0.0 giving NaN; in the
rational idealisation it gives xmin instead — no claim touches W = 1. -/
def plotXs (xmin xmax : ℚ) (w : ℤ) : List ℚ :=
  (List.range (plotClampW w).toNat).map
    (fun i => xmin + (xmax - xmin) * (i : ℚ) / ((plotClampW w : ℚ) - 1))

/-- Range-finding pass of C plot_ascii: walk the sample positions, skip
samples whose evaluation fails and successful samples that are not finite,
and fold the finite ones into the running ymin/ymax with the two
comparisons of the C loop. -/
def rangeLoop (env : EvalEnv) (e v : String) :
    List ℚ → Store → FP → FP → FP × FP
  | [], _, ymin, ymax => (ymin, ymax)
  | x :: xs, st, ymin, ymax =>
    let r := evalWithVar env st e v (.fin x)
    match r.1 with
    | .error _ => rangeLoop env e v xs r.2 ymin ymax
    | .ok y =>
      if isFiniteF y then
        rangeLoop env e v xs r.2 (if fpLt y ymin then y else ymin)
          (if fpLt ymax y then y else ymax)
      else rangeLoop env e v xs r.2 ymin ymax

/-- Observed y-range of C plot_ascii (lines 527-534), up to and including
the padding step: seed ymin/ymax with 1e300 and -1e300, run the sampling
pass, then widen by 1 on each side when ymin or ymax is non-finite (which
cannot happen: the seeds are finite doubles and only finite samples are
folded in) or when the range degenerates to a point. -/
def plotRange (env : EvalEnv) (st : Store) (e v : String) (xmin xmax : ℚ)
    (w : ℤ) : FP × FP :=
  let r := rangeLoop env e v (plotXs xmin xmax w) st
    (.fin ((10 : ℚ) ^ 300)) (.fin (-((10 : ℚ) ^ 300)))
  if !(isFiniteF r.1 && isFiniteF r.2) || fpEq r.1 r.2 then
    (subFP r.1 (.fin 1), addFP r.2 (.fin 1))
  else r

/-! ## Specification-side definitions

The following definitions are built from the words of the specification and
of the claims, not from the C source; each claim theorem relates one of them
to the embedding above. -/

/-- Chunked lexing of one identifier run, written from the observed splitting
behaviour: the run is cut into successive chunks of at most 15 characters,
each chunk lower-cased and classified independently against the function
registry. -/
def chunkTokens : List Char → List CalcTok
  | [] => []
  | c :: rest =>
    (match funcArity ⟨((c :: rest).take 15).map lowerChar⟩ with
     | some ar => CalcTok.func ⟨((c :: rest).take 15).map lowerChar⟩ ar
     | none => CalcTok.ident ⟨((c :: rest).take 15).map lowerChar⟩) ::
    chunkTokens ((c :: rest).drop 15)
  termination_by cs => cs.length
  decreasing_by simp; omega

/-- Newton iteration as the claim words it, over an abstract evaluation
function f: iterate x := x - f(x)/f'(x) with the central-difference
derivative at fixed step h = 1e-6, fail on a zero or non-finite derivative,
succeed when abs(f(x)) is within tolerance, and report non-convergence when
the iteration budget is exhausted. -/
def claimDeriv (f : FP → Except CalcErr FP) (x : FP) (h : ℚ) : FP :=
  match f (addFP x (.fin h)) with
  | .error _ => .nan
  | .ok f1 =>
    match f (subFP x (.fin h)) with
    | .error _ => .nan
    | .ok f2 => divFP (subFP f1 f2) (.fin (2 * h))

/-- Claim-side Newton recursion; compare with newtonGo built from the C
source. -/
def claimNewton (f : FP → Except CalcErr FP) (tol : ℚ) (maxit : ℤ) :
    ℕ → FP → Except CalcErr FP
  | 0, _ => .error (.didNotConverge maxit)
  | k + 1, x =>
    match f x with
    | .error er => .error er
    | .ok fx =>
      let dfx := claimDeriv f x (1 / 1000000)
      if dfx = FP.nan ∨ dfx = FP.fin 0 then
        .error (.zeroOrNonFiniteDerivative x)
      else
        let xn := subFP x (divFP fx dfx)
        if fpLt (fabsFP fx) (.fin tol) then .ok xn
        else claimNewton f tol maxit k xn

/-- The finite successful samples of the plot range pass, in order: the
values at the sample positions whose evaluation (against the UNCHANGED
initial store — the transient binding restores it between samples) succeeds
with a finite value; failed or non-finite samples are dropped. -/
def finSamples (env : EvalEnv) (st : Store) (e v : String) : List ℚ → List ℚ
  | [] => []
  | x :: xs =>
    match (evalWithVar env st e v (.fin x)).1 with
    | .ok (.fin q) => q :: finSamples env st e v xs
    | _ => finSamples env st e v xs

end TuiCalc
namespace TuiCalc

/-! ## Store lemmas

The transient-binding technique of the numeric layer mutates the store and
restores it; these lemmas make the restoration precise.  Two stores are
equivalent when they have the same in-use pattern and identical in-use
slots; free slots may differ in their stale name/value fields (exactly the
residue a set-then-delete round trip leaves in the C table). -/

/-- Equivalence of variable-table slots: same in-use flag, and identical
content when in use (a free slot may carry different stale name/value). -/
def slotEquiv (s1 s2 : VarItem) : Prop :=
  s1.inUse = s2.inUse ∧ (s1.inUse = true → s1 = s2)

/-- Pointwise slot equivalence of stores. -/
def storeEquiv : Store → Store → Prop
  | [], [] => True
  | s1 :: r1, s2 :: r2 => slotEquiv s1 s2 ∧ storeEquiv r1 r2
  | _, _ => False

lemma storeEquiv_refl : ∀ st : Store, storeEquiv st st
  | [] => trivial
  | _ :: r => ⟨⟨rfl, fun _ => rfl⟩, storeEquiv_refl r⟩

lemma storeEquiv_trans : ∀ {a b c : Store}, storeEquiv a b → storeEquiv b c → storeEquiv a c
  | [], [], [], _, _ => trivial
  | _ :: _, _ :: _, _ :: _, ⟨⟨h1, h2⟩, hr⟩, ⟨⟨h3, h4⟩, hr2⟩ =>
    ⟨⟨h1.trans h3, fun hu => (h2 hu).trans (h4 (h1 ▸ hu))⟩, storeEquiv_trans hr hr2⟩

/-- Equivalent stores answer every lookup identically. -/
lemma varGet_congr : ∀ {st1 st2 : Store}, storeEquiv st1 st2 → ∀ n, varGet st1 n = varGet st2 n
  | [], [], _, _ => rfl
  | s1 :: r1, s2 :: r2, ⟨⟨h1, h2⟩, hr⟩, n => by
    by_cases hu : s1.inUse = true
    · rw [h2 hu]; simp only [varGet]; split
      · rfl
      · exact varGet_congr hr n
    · have hu1 : s1.inUse = false := by simpa using hu
      have hu2 : s2.inUse = false := h1 ▸ hu1
      simp only [varGet, hu1, hu2, Bool.false_and, Bool.false_eq_true, if_false]
      exact varGet_congr hr n

lemma anyFree_congr : ∀ {st1 st2 : Store}, storeEquiv st1 st2 →
    st1.any (fun s => !s.inUse) = st2.any (fun s => !s.inUse)
  | [], [], _ => rfl
  | s1 :: r1, s2 :: r2, ⟨⟨h1, _⟩, hr⟩ => by
    simp only [List.any_cons, h1, anyFree_congr hr]

/-- Equivalent stores can bind exactly the same names. -/
lemma canBind_congr {st1 st2 : Store} (h : storeEquiv st1 st2) (n : String) :
    canBind st1 n = canBind st2 n := by
  simp only [canBind, varGet_congr h, anyFree_congr h]

/-- Names of at most 15 characters survive slot truncation unchanged. -/
lemma truncName_eq {v : String} (hv : v.length ≤ 15) : truncName v = v := by
  obtain ⟨d⟩ := v
  exact congrArg String.mk (List.take_of_length_le (by simpa [String.length] using hv))

lemma varGet_varUpdate_self : ∀ {st : Store} {n : String},
    (varGet st n).isSome → ∀ v, varGet (varUpdate st n v) n = some v
  | [], n, h, v => by simp [varGet] at h
  | s :: r, n, h, v => by
    by_cases hc : (s.inUse && s.name = n) = true
    · simp [varUpdate, varGet, hc]
    · have hc' : (s.inUse && decide (s.name = n)) = false := by simpa using hc
      simp only [varGet, hc', Bool.false_eq_true, if_false] at h
      simp only [varUpdate, hc', Bool.false_eq_true, if_false, varGet]
      exact varGet_varUpdate_self h v

/-- Updating a bound name twice, back to its original value, is a no-op. -/
lemma varUpdate_restore : ∀ {st : Store} {n : String} {old : FP},
    varGet st n = some old → ∀ x, varUpdate (varUpdate st n x) n old = st
  | [], n, old, h, x => by simp [varGet] at h
  | s :: r, n, old, h, x => by
    by_cases hc : (s.inUse && s.name = n) = true
    · have hc' : (s.inUse && decide (s.name = n)) = true := by simpa using hc
      simp only [varGet, hc', if_true] at h
      simp only [varUpdate, hc', if_true]
      injection h with h2
      rw [← h2]
    · have hc' : (s.inUse && decide (s.name = n)) = false := by simpa using hc
      simp only [varGet, hc', Bool.false_eq_true, if_false] at h
      simp only [varUpdate, hc', Bool.false_eq_true, if_false]
      rw [varUpdate_restore h x]

/-- Inserting an unbound (slot-sized) name and deleting it again returns a
store equivalent to the original: only stale fields of a free slot differ. -/
lemma varDel_varInsert_equiv : ∀ {st : Store} {n : String},
    varGet st n = none → truncName n = n → ∀ x,
    storeEquiv (varDel (varInsert st n x) n) st
  | [], n, h, ht, x => trivial
  | s :: r, n, h, ht, x => by
    by_cases hu : s.inUse = true
    · have hc' : (s.inUse && decide (s.name = n)) = false := by
        by_contra hcc
        simp only [Bool.not_eq_false, Bool.and_eq_true, decide_eq_true_eq] at hcc
        simp [varGet, hcc.1, hcc.2] at h
      simp only [varGet, hc', Bool.false_eq_true, if_false] at h
      have hname : decide (s.name = n) = false := by
        revert hc'
        simp [hu]
      simp [varInsert, hu, varDel, hname]
      exact ⟨⟨rfl, fun _ => rfl⟩, varDel_varInsert_equiv h ht x⟩
    · have hu' : s.inUse = false := by simpa using hu
      simp only [varInsert, hu', Bool.false_eq_true, if_false, varDel, ht]
      rw [if_pos (by simp)]
      exact ⟨⟨by simp [hu'], by simp [hu']⟩, storeEquiv_refl r⟩

lemma varUpdate_equiv : ∀ {st1 st2 : Store}, storeEquiv st1 st2 →
    ∀ n v, storeEquiv (varUpdate st1 n v) (varUpdate st2 n v)
  | [], [], _, _, _ => trivial
  | s1 :: r1, s2 :: r2, ⟨⟨h1, h2⟩, hr⟩, n, v => by
    by_cases hu : s1.inUse = true
    · rw [h2 hu]
      simp only [varUpdate]
      split
      · exact ⟨⟨rfl, fun _ => rfl⟩, hr⟩
      · exact ⟨⟨rfl, fun _ => rfl⟩, varUpdate_equiv hr n v⟩
    · have hu1 : s1.inUse = false := by simpa using hu
      have hu2 : s2.inUse = false := h1 ▸ hu1
      simp only [varUpdate, hu1, hu2, Bool.false_and, Bool.false_eq_true, if_false]
      exact ⟨⟨h1, h2⟩, varUpdate_equiv hr n v⟩

lemma varInsert_equiv : ∀ {st1 st2 : Store}, storeEquiv st1 st2 →
    ∀ n v, storeEquiv (varInsert st1 n v) (varInsert st2 n v)
  | [], [], _, _, _ => trivial
  | s1 :: r1, s2 :: r2, ⟨⟨h1, h2⟩, hr⟩, n, v => by
    by_cases hu : s1.inUse = true
    · have hu2 : s2.inUse = true := h1 ▸ hu
      simp only [varInsert, hu, hu2, if_true]
      exact ⟨⟨h1, h2⟩, varInsert_equiv hr n v⟩
    · have hu1 : s1.inUse = false := by simpa using hu
      have hu2 : s2.inUse = false := h1 ▸ hu1
      simp only [varInsert, hu1, hu2, Bool.false_eq_true, if_false]
      exact ⟨⟨rfl, fun _ => rfl⟩, hr⟩

lemma varSet_equiv {st1 st2 : Store} (h : storeEquiv st1 st2) (n : String) (v : FP) :
    storeEquiv (varSet st1 n v) (varSet st2 n v) := by
  unfold varSet
  rw [varGet_congr h n]
  split
  · exact varUpdate_equiv h n v
  · exact varInsert_equiv h n v

lemma varSet_varSet_restore {st : Store} {v : String} {w : FP}
    (hg : varGet st v = some w) (x : FP) : varSet (varSet st v x) v w = st := by
  have hs : (varGet st v).isSome = true := by simp [hg]
  have h1 : varSet st v x = varUpdate st v x := by
    unfold varSet
    rw [hg]
    rfl
  have h2 : varGet (varUpdate st v x) v = some x := varGet_varUpdate_self hs x
  rw [h1]
  unfold varSet
  rw [h2]
  simp only [Option.isSome_some, if_true]
  exact varUpdate_restore hg x

/-- Core of the transient-binding guarantee of eval_with_var: whatever the
inner evaluation does, the store the call returns is equivalent (same in-use
pattern, identical in-use slots) to the store it received, provided the
bound name fits in a slot (at most 15 characters; every caller in the
program passes a name already truncated to that length). -/
lemma evalWithVar_restore (env : EvalEnv) (st : Store) (e v : String) (x : FP)
    (hv : v.length ≤ 15) : storeEquiv (evalWithVar env st e v x).2 st := by
  cases hg : varGet st v with
  | some w =>
    have hs : (varGet st v).isSome = true := by simp [hg]
    simp only [evalWithVar, hg, hs, if_true, Option.getD_some]
    rw [varSet_varSet_restore hg x]
    exact storeEquiv_refl st
  | none =>
    simp only [evalWithVar, hg, Option.isSome_none, Bool.false_eq_true, if_false]
    have h1 : varSet st v x = varInsert st v x := by
      unfold varSet
      rw [hg]
      rfl
    rw [h1]
    exact varDel_varInsert_equiv hg (truncName_eq hv) x

/-! ## Congruence of evaluation in the store -/

/-- The RPN evaluator reads the store only through varGet, and never for the
name "ans" (which short-circuits to the last-result register); so two stores
that agree on every other name give identical evaluations. -/
lemma evalRpnGo_congr (env : EvalEnv) {st1 st2 : Store}
    (H : ∀ n, n ≠ "ans" → varGet st1 n = varGet st2 n) :
    ∀ (rpn : List CalcTok) (stk : List FP),
      evalRpnGo env st1 rpn stk = evalRpnGo env st2 rpn stk := by
  intro rpn
  induction rpn with
  | nil => intro stk; rfl
  | cons t ts ih =>
    intro stk
    cases t with
    | num v =>
      simp only [evalRpnGo]
      split
      · rfl
      · exact ih _
    | ident n =>
      simp only [evalRpnGo]
      by_cases hn : n = "ans"
      · rw [if_pos hn, if_pos hn]
        split
        · rfl
        · exact ih _
      · rw [if_neg hn, if_neg hn, H n hn]
        cases varGet st2 n with
        | none => rfl
        | some w =>
          show (if 1024 ≤ stk.length then Except.error CalcErr.stackOverflow
                else evalRpnGo env st1 ts (w :: stk)) =
               (if 1024 ≤ stk.length then Except.error CalcErr.stackOverflow
                else evalRpnGo env st2 ts (w :: stk))
          split
          · rfl
          · exact ih _
    | op k =>
      simp only [evalRpnGo]
      split
      · cases stk with
        | nil => rfl
        | cons a rest =>
          cases k <;> simp only [evalRpnGo] <;> first
            | rfl
            | (split
               · exact ih _
               · rfl)
            | exact ih _
      · split
        · cases stk with
          | nil => rfl
          | cons a rest => exact ih _
        · cases stk with
          | nil => rfl
          | cons b rest =>
            cases rest with
            | nil => rfl
            | cons a rest2 =>
              show (match evalBinOp env.oracle k a b with
                    | .error e => Except.error e
                    | .ok y => evalRpnGo env st1 ts (y :: rest2)) =
                   (match evalBinOp env.oracle k a b with
                    | .error e => Except.error e
                    | .ok y => evalRpnGo env st2 ts (y :: rest2))
              cases evalBinOp env.oracle k a b with
              | error e => rfl
              | ok y => exact ih _
    | func name ar =>
      simp only [evalRpnGo]
      split
      · cases stk with
        | nil => rfl
        | cons x rest =>
          show (match applyFunc1 env name x with
                | .error e => Except.error e
                | .ok y => evalRpnGo env st1 ts (y :: rest)) =
               (match applyFunc1 env name x with
                | .error e => Except.error e
                | .ok y => evalRpnGo env st2 ts (y :: rest))
          cases applyFunc1 env name x with
          | error e => rfl
          | ok y => exact ih _
      · split
        · split
          · rfl
          · cases stk with
            | nil => rfl
            | cons b rest =>
              cases rest with
              | nil => rfl
              | cons a rest2 =>
                show (match powCore env.oracle a b with
                      | none => Except.error CalcErr.powFnDomain
                      | some y => evalRpnGo env st1 ts (y :: rest2)) =
                     (match powCore env.oracle a b with
                      | none => Except.error CalcErr.powFnDomain
                      | some y => evalRpnGo env st2 ts (y :: rest2))
                cases powCore env.oracle a b with
                | none => rfl
                | some y => exact ih _
        · rfl
    | lparen => rfl
    | rparen => rfl
    | comma => rfl

/-- Same congruence for the whole facade. -/
lemma evalExpr_congr (env : EvalEnv) {st1 st2 : Store}
    (H : ∀ n, n ≠ "ans" → varGet st1 n = varGet st2 n) (s : String) :
    evalExpr env st1 s = evalExpr env st2 s := by
  simp only [evalExpr]
  cases tokenize s with
  | error e => rfl
  | ok tks =>
    show (match toRpn tks with
          | .error e => Except.error e
          | .ok rpn => evalRpn env st1 rpn) =
         (match toRpn tks with
          | .error e => Except.error e
          | .ok rpn => evalRpn env st2 rpn)
    cases toRpn tks with
    | error e => rfl
    | ok rpn => exact evalRpnGo_congr env H rpn []

/-- Equivalent stores give identical evaluations. -/
lemma evalExpr_equiv (env : EvalEnv) {st1 st2 : Store} (h : storeEquiv st1 st2)
    (s : String) : evalExpr env st1 s = evalExpr env st2 s :=
  evalExpr_congr env (fun n _ => varGet_congr h n) s

end TuiCalc
namespace TuiCalc

/-- The first component of eval_with_var is the evaluation against the store
with the transient binding installed. -/
lemma evalWithVar_fst (env : EvalEnv) (st : Store) (e v : String) (x : FP) :
    (evalWithVar env st e v x).1 = evalExpr env (varSet st v x) e := rfl

/-- Stability of eval_with_var under store equivalence: a call made from any
store equivalent to st returns the same outcome as a call made from st, and
leaves a store again equivalent to st.  This is what lets the repeated calls
of the numeric layer be read as repeated calls against the one initial
store. -/
lemma evalWithVar_stable (env : EvalEnv) {st2 st : Store} (e v : String) (x : FP)
    (hv : v.length ≤ 15) (h : storeEquiv st2 st) :
    (evalWithVar env st2 e v x).1 = (evalWithVar env st e v x).1 ∧
      storeEquiv (evalWithVar env st2 e v x).2 st := by
  constructor
  · rw [evalWithVar_fst, evalWithVar_fst]
    exact evalExpr_equiv env (varSet_equiv h v x) e
  · exact storeEquiv_trans (evalWithVar_restore env st2 e v x hv) h

lemma varGet_varInsert_self : ∀ {st : Store} {n : String}, varGet st n = none →
    st.any (fun s => !s.inUse) = true → truncName n = n → ∀ x,
    varGet (varInsert st n x) n = some x
  | [], n, _, hf, _, x => by simp at hf
  | s :: r, n, h, hf, ht, x => by
    by_cases hu : s.inUse = true
    · have hc' : (s.inUse && decide (s.name = n)) = false := by
        by_contra hcc
        simp only [Bool.not_eq_false, Bool.and_eq_true, decide_eq_true_eq] at hcc
        simp [varGet, hcc.1, hcc.2] at h
      simp only [varGet, hc', Bool.false_eq_true, if_false] at h
      have hf' : r.any (fun s => !s.inUse) = true := by
        simpa [hu] using hf
      have hname : decide (s.name = n) = false := by
        revert hc'
        simp [hu]
      simp only [varInsert, hu, if_true, varGet, Bool.true_and, hname,
        Bool.false_eq_true, if_false]
      exact varGet_varInsert_self h hf' ht x
    · have hu' : s.inUse = false := by simpa using hu
      simp only [varInsert, hu', Bool.false_eq_true, if_false, varGet, ht]
      rw [if_pos (by simp)]

/-- After var_set of a bindable, slot-sized name, looking the name up yields
the new value. -/
lemma varGet_varSet_self {st : Store} {n : String} (hb : canBind st n = true)
    (ht : truncName n = n) (x : FP) : varGet (varSet st n x) n = some x := by
  unfold varSet
  cases hg : varGet st n with
  | some w =>
    have hs : (varGet st n).isSome = true := by simp [hg]
    rw [if_pos (by simp [hg])]
    exact varGet_varUpdate_self hs x
  | none =>
    have hf : st.any (fun s => !s.inUse) = true := by
      simpa [canBind, hg] using hb
    rw [if_neg (by simp [hg])]
    exact varGet_varInsert_self hg hf ht x

lemma varGet_varUpdate_other : ∀ {st : Store} {n m : String} {v : FP}, m ≠ n →
    varGet (varUpdate st n v) m = varGet st m
  | [], _, _, _, _ => rfl
  | s :: r, n, m, v, hm => by
    by_cases hc : (s.inUse && decide (s.name = n)) = true
    · have hc2 : s.inUse = true ∧ s.name = n := by simpa using hc
      have hcm : (s.inUse && decide (s.name = m)) = false := by
        simp [hc2.2, Ne.symm hm]
      simp only [varUpdate, hc, if_true, varGet, hcm, Bool.false_eq_true, if_false]
    · simp only [varUpdate, hc, Bool.false_eq_true, if_false, varGet]
      split
      · rfl
      · exact varGet_varUpdate_other hm

lemma varGet_varInsert_other : ∀ {st : Store} {n m : String} {v : FP},
    m ≠ truncName n → varGet (varInsert st n v) m = varGet st m
  | [], _, _, _, _ => rfl
  | s :: r, n, m, v, hm => by
    by_cases hu : s.inUse = true
    · simp only [varInsert, hu, if_true, varGet]
      split
      · rfl
      · exact varGet_varInsert_other hm
    · have hu' : s.inUse = false := by simpa using hu
      simp only [varInsert, hu', Bool.false_eq_true, if_false, varGet, hu']
      rw [if_neg (by simp [Ne.symm hm]), if_neg (by simp [hu'])]

/-- var_set of one name leaves every lookup of a different name (also
different from the truncated stored form) unchanged. -/
lemma varGet_varSet_other {st : Store} {n m : String} {v : FP} (hm : m ≠ n)
    (hmt : m ≠ truncName n) : varGet (varSet st n v) m = varGet st m := by
  unfold varSet
  split
  · exact varGet_varUpdate_other hm
  · exact varGet_varInsert_other hmt

end TuiCalc
namespace TuiCalc

/-! ## Additional source artifacts used by the claims -/

/-- Expectation table of the program's own self test (C run_selftest_local,
array c1): expression and expected value; every row carries the tolerance
1e-12 in the C table. -/
def selftestCases : List (String × ℚ) :=
  [("1+2*3", 7), ("(2+3)*4", 20), ("-3^2", -9), ("(-3)^2", 9), ("5!", 120),
   ("50%", 1/2), ("sqrt(2)^2", 2), ("ln(exp(1))", 1), ("log(1000)", 3),
   ("pow(2,10)", 1024)]

/-! ## Claim theorems -/

/-- Claim C1: with the fixed operator table (UnaryMinus precedence 4,
right-associative; Pow precedence 3, right-associative), the claim says
evaluate("-3^2") = -9 and evaluate("(-3)^2") = 9.  The code disagrees with
the claim and with its own self-test row ("-3^2", -9): because the
unary minus has the HIGHER precedence, the shunting-yard loop pops it before
the right-associative ^, so both expressions evaluate to 9. -/
theorem claim_C1_divergence :
    (("-3^2", (-9 : ℚ)) ∈ selftestCases) ∧
      (∀ (env : EvalEnv) (st : Store), evalExpr env st "-3^2" = .ok (.fin 9)) ∧
      (∀ (env : EvalEnv) (st : Store), evalExpr env st "(-3)^2" = .ok (.fin 9)) ∧
      FP.fin 9 ≠ FP.fin (-9) :=
  ⟨by decide, fun _ _ => rfl, fun _ _ => rfl, by decide⟩

/-- Claim C2, counterexample: evaluate("asin(2)") succeeds and its success
value is NaN — a domain violation of asin is NOT surfaced as a typed error,
refuting the claim that every successful result of the pipeline is finite. -/
theorem claim_C2_counterexample :
    evalExpr defaultEnv initStore "asin(2)" = .ok .nan := by decide

/-- Claim C2 as amended: successful results of the pipeline need not be
finite — asin and acos are applied with no domain guard, so arguments
outside [-1,1] produce NaN which is returned as a success value (for every
oracle, store, angle mode and last result). -/
theorem claim_C2_amended :
    (∀ (env : EvalEnv) (st : Store), evalExpr env st "asin(2)" = .ok .nan) ∧
      (∀ (env : EvalEnv) (st : Store), evalExpr env st "acos(2)" = .ok .nan) :=
  ⟨fun _ _ => rfl, fun _ _ => rfl⟩

/-- Claim C4: eval_with_var leaves the variable store observably exactly as
it found it — every lookup after the call equals the lookup before it,
whether the inner evaluation succeeded or failed (the restore does not
depend on the outcome) — for any bound name of at most 15 characters (the
slot size; every caller in the program truncates the name to that length
first). -/
theorem claim_C4 (env : EvalEnv) (st : Store) (e v : String) (x : FP)
    (hv : v.length ≤ 15) (n : String) :
    varGet (evalWithVar env st e v x).2 n = varGet st n :=
  varGet_congr (evalWithVar_restore env st e v x hv) n

/-- Witness for claim C4 at a concrete call whose inner evaluation fails
(division by zero): the lookup of "y" is unchanged. -/
theorem claim_C4_witness :
    ("x".length ≤ 15) ∧
      varGet (evalWithVar defaultEnv initStore "1/0" "x" (.fin 2)).2 "y" =
        varGet initStore "y" :=
  ⟨by decide, claim_C4 defaultEnv initStore "1/0" "x" (.fin 2) (by decide) "y"⟩

/-- Claim C9: in the evaluator's binary dispatch, Div fails DivisionByZero
exactly when the popped right operand is exactly 0.0 and otherwise returns
a/b, Add, Sub and Mul always succeed, and the full pipeline rejects "1/0"
with DivisionByZero rather than returning Inf as a success. -/
theorem claim_C9 :
    (∀ (o : MathOracle) (a b : FP),
        evalBinOp o .div a b =
          if b = FP.fin 0 then .error .divisionByZero else .ok (divFP a b)) ∧
      (∀ (o : MathOracle) (a b : FP),
        evalBinOp o .add a b = .ok (addFP a b) ∧
          evalBinOp o .sub a b = .ok (subFP a b) ∧
          evalBinOp o .mul a b = .ok (mulFP a b)) ∧
      (∀ (env : EvalEnv) (st : Store),
        evalExpr env st "1/0" = .error .divisionByZero) :=
  ⟨fun _ _ _ => rfl, fun _ _ _ => ⟨rfl, rfl, rfl⟩, fun _ _ => rfl⟩

/-- Claim C10: the identifier "ans" always resolves to the last-result
register and never consults the variable store: a store entry named "ans"
(with any value, including one installed as a transient binding by
eval_with_var) has no effect on any evaluation. -/
theorem claim_C10 (env : EvalEnv) (st : Store) (e : String) (w x : FP) :
    evalExpr env (varSet st "ans" w) e = evalExpr env st e ∧
      evalExpr env st "ans" = .ok env.lastResult ∧
      (evalWithVar env st e "ans" x).1 = evalExpr env st e := by
  have htr : truncName "ans" = "ans" := by decide
  have hset : ∀ (u : FP), evalExpr env (varSet st "ans" u) e = evalExpr env st e := by
    intro u
    refine evalExpr_congr env (fun n hn => ?_) e
    exact varGet_varSet_other hn (htr ▸ hn)
  refine ⟨hset w, rfl, ?_⟩
  rw [evalWithVar_fst]
  exact hset x

end TuiCalc
namespace TuiCalc

set_option maxRecDepth 4000 in
/-- Claim C8: the postfix Factorial operator succeeds exactly when its
popped operand lies in [0,170] and is within 1e-9 of an integer, in which
case it pushes Gamma(round(a)+1) = (round a)! (the exp(lgamma) computation
of the C code idealised to the exact value); otherwise it fails
FactorialDomainError.  Concretely: "5!" = 120, "170!" succeeds with the
finite value 170!, and "171!" and "3.5!" fail FactorialDomainError. -/
theorem claim_C8 :
    (∀ q : ℚ, factorialOk (.fin q) =
        (decide (0 ≤ q) && decide (q ≤ 170) && nearlyInt q)) ∧
      (∀ (env : EvalEnv) (st : Store) (ts : List CalcTok) (stk : List FP) (a : FP),
        evalRpnGo env st (CalcTok.op .fact :: ts) (a :: stk) =
          if factorialOk a then evalRpnGo env st ts (factValF a :: stk)
          else .error .factorialDomain) ∧
      (∀ (env : EvalEnv) (st : Store), evalExpr env st "5!" = .ok (.fin 120)) ∧
      (∀ (env : EvalEnv) (st : Store),
        evalExpr env st "170!" = .ok (.fin (Nat.factorial 170 : ℕ))) ∧
      (∀ (env : EvalEnv) (st : Store), evalExpr env st "171!" = .error .factorialDomain) ∧
      (∀ (env : EvalEnv) (st : Store), evalExpr env st "3.5!" = .error .factorialDomain) := by
  refine ⟨?_, fun _ _ _ _ _ => rfl, fun _ _ => rfl, fun _ _ => rfl,
    fun _ _ => rfl, fun _ _ => rfl⟩
  intro q
  simp only [factorialOk]
  by_cases h1 : nearlyInt q = true
  · simp only [h1, Bool.not_true, Bool.false_eq_true, if_false, Bool.and_true]
    by_cases h2 : q < 0 ∨ 170 < q
    · rw [if_pos h2]
      rcases h2 with h2 | h2
      · simp [not_le.mpr h2]
      · simp [not_le.mpr h2]
    · rw [if_neg h2]
      push_neg at h2
      simp [h2.1, h2.2]
  · have h1' : nearlyInt q = false := by simpa using h1
    simp [h1']

end TuiCalc
namespace TuiCalc

/-! ## Claim C3: lexing of long identifier runs -/

lemma takeWhile_all {α : Type} {p : α → Bool} :
    ∀ {l : List α}, (∀ c ∈ l, p c = true) → l.takeWhile p = l
  | [], _ => rfl
  | c :: r, h => by
    simp only [List.takeWhile_cons, h c (by simp), if_true]
    rw [takeWhile_all (fun x hx => h x (by simp [hx]))]

lemma isFuncChar_not_ws {c : Char} (h : isFuncChar c = true) : ¬(c.toNat ≤ 32) := by
  simp only [isFuncChar, Bool.or_eq_true, Bool.and_eq_true, decide_eq_true_eq] at h
  rcases h with (⟨h1, _⟩ | ⟨h1, _⟩) | h1
  · omega
  · omega
  · subst h1
    decide

lemma isFuncChar_not_digit {c : Char} (h : isFuncChar c = true) : isDigitChar c = false := by
  cases hd : isDigitChar c
  · rfl
  · exfalso
    simp only [isFuncChar, Bool.or_eq_true, Bool.and_eq_true, decide_eq_true_eq] at h
    simp only [isDigitChar, Bool.and_eq_true, decide_eq_true_eq] at hd
    rcases h with (⟨h1, h2⟩ | ⟨h1, h2⟩) | h1
    · omega
    · omega
    · subst h1
      revert hd
      decide

lemma isFuncChar_not_dot {c : Char} (h : isFuncChar c = true) : ¬(c = '.') := by
  intro hc
  subst hc
  exact absurd h (by decide)

lemma drop_takeLen15 : ∀ (l : List Char), l.drop (l.take 15).length = l.drop 15 := by
  intro l
  rcases le_total l.length 15 with hle | hle
  · rw [List.drop_eq_nil_of_le (by simp [List.length_take]; omega),
      List.drop_eq_nil_of_le hle]
  · rw [List.length_take, Nat.min_eq_left hle]

/-- On an input that is one maximal run of identifier characters, the lexer
loop emits one token per successive 15-character chunk. -/
lemma tokenizeGo_identRun : ∀ (fuel : ℕ) (cs : List Char) (prev : PrevT)
    (acc : List CalcTok), (∀ c ∈ cs, isFuncChar c = true) → cs.length < fuel →
    tokenizeGo fuel cs prev acc = .ok (acc.reverse ++ chunkTokens cs) := by
  intro fuel
  induction fuel with
  | zero =>
    intro cs prev acc _ h
    omega
  | succ f ih =>
    intro cs prev acc hall hlen
    cases cs with
    | nil => simp [tokenizeGo, chunkTokens]
    | cons c rest =>
      have hc : isFuncChar c = true := hall c (by simp)
      have hws : ¬(c.toNat ≤ 32) := isFuncChar_not_ws hc
      have hd : isDigitChar c = false := isFuncChar_not_digit hc
      have hdot : ¬(c = '.') := isFuncChar_not_dot hc
      have htw : (c :: rest).takeWhile isFuncChar = c :: rest := takeWhile_all hall
      have hguard : (isDigitChar c || decide (c = '.')) = false := by
        simp [hd, hdot]
      have hchunklen : 1 ≤ ((c :: rest).take 15).length := by
        simp [List.length_take]
      have hall2 : ∀ x ∈ (c :: rest).drop 15, isFuncChar x = true :=
        fun x hx => hall x (List.drop_subset 15 (c :: rest) hx)
      have hlen2 : ((c :: rest).drop 15).length < f := by
        simp only [List.length_drop]
        simp only [List.length_cons] at hlen ⊢
        omega
      simp only [tokenizeGo, if_neg hws, hguard, Bool.false_eq_true, if_false, hc,
        if_true, htw]
      rw [chunkTokens]
      cases hfa : funcArity ⟨((c :: rest).take 15).map lowerChar⟩ with
      | some ar =>
        simp only [drop_takeLen15, ih _ _ _ hall2 hlen2]
        simp
      | none =>
        simp only [drop_takeLen15, ih _ _ _ hall2 hlen2]
        simp

/-- Claim C3, counterexample: the 16-character identifier run
"abcdefghijklmnop" is NOT lexed to the single truncated Identifier token the
claim describes; an extra token is produced from the 16th character. -/
theorem claim_C3_counterexample :
    tokenize "abcdefghijklmnop" =
        .ok [CalcTok.ident "abcdefghijklmno", CalcTok.ident "p"] ∧
      tokenize "abcdefghijklmnop" ≠ .ok [CalcTok.ident "abcdefghijklmno"] :=
  ⟨by decide, by decide⟩

/-- Claim C3 as amended: lexing an identifier run never fails, but a run
longer than 15 characters is SPLIT, not truncated: the lexer emits one token
per successive 15-character chunk, each chunk case-folded to lowercase and
classified independently against the function registry (so the first token
of an over-long identifier holds its first 15 characters lowercased, and the
remaining characters produce further tokens). -/
theorem claim_C3_amended (cs : List Char)
    (hid : ∀ c ∈ cs, isFuncChar c = true) :
    tokenizeList cs = .ok (chunkTokens cs) := by
  have h := tokenizeGo_identRun (cs.length + 1) cs .oper [] hid (by omega)
  simpa [tokenizeList] using h

/-- Witness for the amended claim C3 at the concrete 16-character run. -/
theorem claim_C3_witness :
    (∀ c ∈ ['a', 'b', 'c', 'd', 'e', 'f', 'g', 'h', 'i', 'j', 'k', 'l', 'm',
        'n', 'o', 'p'], isFuncChar c = true) ∧
      tokenizeList ['a', 'b', 'c', 'd', 'e', 'f', 'g', 'h', 'i', 'j', 'k', 'l',
          'm', 'n', 'o', 'p'] =
        .ok (chunkTokens ['a', 'b', 'c', 'd', 'e', 'f', 'g', 'h', 'i', 'j', 'k',
          'l', 'm', 'n', 'o', 'p']) :=
  ⟨by decide, claim_C3_amended _ (by decide)⟩

end TuiCalc
namespace TuiCalc

/-- The derivative routine, run from any store equivalent to st, computes
exactly the claim-side central difference of the fixed evaluation function
f(y) = eval_with_var(e, v, y) against st, and leaves a store equivalent to
st. -/
lemma diffCenter_stable (env : EvalEnv) {st2 st : Store} (e v : String) (x : FP)
    (hh : ℚ) (hv : v.length ≤ 15) (h : storeEquiv st2 st) :
    (diffCenter env st2 e v x hh).1 =
      claimDeriv (fun y => (evalWithVar env st e v y).1) x hh ∧
      storeEquiv (diffCenter env st2 e v x hh).2 st := by
  obtain ⟨he1, hs1⟩ := evalWithVar_stable env e v (addFP x (.fin hh)) hv h
  simp only [diffCenter, claimDeriv, he1]
  cases (evalWithVar env st e v (addFP x (.fin hh))).1 with
  | error er => exact ⟨rfl, hs1⟩
  | ok f1 =>
    obtain ⟨he2, hs2⟩ := evalWithVar_stable env e v (subFP x (.fin hh)) hv hs1
    simp only [he2]
    cases (evalWithVar env st e v (subFP x (.fin hh))).1 with
    | error er => exact ⟨rfl, hs2⟩
    | ok f2 => exact ⟨rfl, hs2⟩

lemma newtonGo_claim (env : EvalEnv) {st : Store} (e v : String) (tol : ℚ)
    (maxit : ℤ) (hv : v.length ≤ 15) :
    ∀ (k : ℕ) (x : FP) {st2 : Store}, storeEquiv st2 st →
      (newtonGo env e v tol maxit k x st2).1 =
        claimNewton (fun y => (evalWithVar env st e v y).1) tol maxit k x := by
  intro k
  induction k with
  | zero =>
    intro x st2 h
    rfl
  | succ kk ih =>
    intro x st2 h
    obtain ⟨he1, hs1⟩ := evalWithVar_stable env e v x hv h
    simp only [newtonGo, claimNewton, he1]
    cases (evalWithVar env st e v x).1 with
    | error er => rfl
    | ok fx =>
      obtain ⟨hd1, hd2⟩ := diffCenter_stable env e v x (1 / 1000000) hv hs1
      simp only [hd1]
      by_cases hc : claimDeriv (fun y => (evalWithVar env st e v y).1) x (1 / 1000000) = FP.nan ∨
          claimDeriv (fun y => (evalWithVar env st e v y).1) x (1 / 1000000) = FP.fin 0
      · rw [if_pos hc, if_pos hc]
      · rw [if_neg hc, if_neg hc]
        by_cases ht : fpLt (fabsFP fx) (.fin tol) = true
        · rw [if_pos ht, if_pos ht]
        · rw [if_neg ht, if_neg ht]
          exact ih _ hd2

/-- Claim C5: the Newton solver of the source is exactly the iteration the
claim describes — x := x - f(x)/f'(x) with the central-difference derivative
at fixed step h = 1e-6, up to maxit iterations, succeeding exactly when
abs(f(x)) < tol is met within the budget, failing ZeroOrNonFiniteDerivative
when the derivative is zero or non-finite at any iteration (which includes
an evaluation failure inside the derivative, surfaced as NaN), failing
DidNotConverge(maxit) when the budget is exhausted, and propagating an
f-evaluation failure — where f is evaluation of the expression with the
variable transiently bound (claimNewton, built from the claim's words over
that abstract f).  The hypothesis is the slot-sized variable name every
caller guarantees. -/
theorem claim_C5 (env : EvalEnv) (st : Store) (e v : String) (x0 : ℚ)
    (maxit : ℤ) (tol : ℚ) (hv : v.length ≤ 15) :
    (solveNewton env st e v x0 maxit tol).1 =
      claimNewton (fun y => (evalWithVar env st e v y).1) tol maxit maxit.toNat
        (.fin x0) :=
  newtonGo_claim env e v tol maxit hv maxit.toNat (.fin x0) (storeEquiv_refl st)

/-- Witness for claim C5 at a concrete call. -/
theorem claim_C5_witness :
    ("x".length ≤ 15) ∧
      (solveNewton defaultEnv initStore "1/0" "x" 0 1 1).1 =
        claimNewton (fun y => (evalWithVar defaultEnv initStore "1/0" "x" y).1) 1 1
          (Int.toNat 1) (.fin 0) :=
  ⟨by decide, claim_C5 defaultEnv initStore "1/0" "x" 0 1 1 (by decide)⟩

end TuiCalc
namespace TuiCalc

/-! ## Claim C6: Simpson integration of x^2 over [0,1] -/

lemma powCore_sq (o : MathOracle) (t : ℚ) :
    powCore o (.fin t) (.fin 2) = some (.fin (t ^ 2)) := by
  simp only [powCore]
  rw [if_neg (by simp : ¬(FP.fin 2 = FP.fin 0))]
  by_cases ht : t = 1
  · subst ht
    norm_num
  · rw [if_neg (by simp [ht] : ¬(FP.fin t = FP.fin 1))]
    rw [if_neg (by norm_num : ¬(t = 0 ∧ (2:ℚ) < 0))]
    rw [if_pos (by norm_num : (2:ℚ).den = 1)]
    have h2 : (2:ℚ).num = 2 := by norm_num
    rw [h2]
    norm_num [zpow_ofNat]

lemma evalExpr_xsq (env : EvalEnv) {st' : Store} {t : ℚ}
    (hx : varGet st' "x" = some (.fin t)) :
    evalExpr env st' "x^2" = .ok (.fin (t ^ 2)) := by
  have h0 : evalExpr env st' "x^2" =
      evalRpnGo env st' [CalcTok.ident "x", CalcTok.num 2, CalcTok.op OpKind.pow] [] := rfl
  rw [h0]
  simp only [evalRpnGo]
  rw [if_neg (by decide : ¬("x" = "ans")), hx]
  norm_num [evalRpnGo, evalBinOp, powCore_sq, isPostfixOp]
  intro hcon
  exact absurd hcon (by decide)

lemma evalWithVar_xsq (env : EvalEnv) {st st2 : Store} (hb : canBind st "x" = true)
    (h : storeEquiv st2 st) (t : ℚ) :
    (evalWithVar env st2 "x^2" "x" (.fin t)).1 = .ok (.fin (t ^ 2)) ∧
      storeEquiv (evalWithVar env st2 "x^2" "x" (.fin t)).2 st := by
  have hb2 : canBind st2 "x" = true := (canBind_congr h "x").trans hb
  constructor
  · rw [evalWithVar_fst]
    exact evalExpr_xsq env (varGet_varSet_self hb2 (by decide) (.fin t))
  · exact storeEquiv_trans (evalWithVar_restore env st2 "x^2" "x" (.fin t) (by decide)) h

end TuiCalc
namespace TuiCalc

/-- The interior loop on the integrand "x^2" accumulates the exact weighted
sum of squares of the sample positions, and keeps the store equivalent. -/
lemma simpLoop_xsq (env : EvalEnv) {st : Store} (hb : canBind st "x" = true)
    (a h : ℚ) : ∀ (l : List ℕ) {st2 : Store}, storeEquiv st2 st → ∀ (s : ℚ),
    (simpLoop env "x^2" "x" a h l st2 (.fin s)).1 =
      .ok (.fin (s + (l.map (fun i : ℕ =>
        (if i % 2 = 1 then (4:ℚ) else 2) * (a + (i:ℚ) * h) ^ 2)).sum)) ∧
      storeEquiv (simpLoop env "x^2" "x" a h l st2 (.fin s)).2 st := by
  intro l
  induction l with
  | nil =>
    intro st2 hst s
    constructor
    · simp [simpLoop]
    · exact hst
  | cons i is ih =>
    intro st2 hst s
    obtain ⟨he, hs⟩ := evalWithVar_xsq env hb hst (a + (i:ℚ) * h)
    simp only [simpLoop, he]
    by_cases hm : i % 2 = 1
    · rw [if_pos hm]
      simp only [mulFP, addFP]
      obtain ⟨ih1, ih2⟩ := ih hs (s + 4 * (a + (i:ℚ) * h) ^ 2)
      refine ⟨?_, ih2⟩
      rw [ih1]
      simp only [List.map_cons, List.sum_cons]
      rw [if_pos hm]
      congr 2
      ring
    · rw [if_neg hm]
      simp only [mulFP, addFP]
      obtain ⟨ih1, ih2⟩ := ih hs (s + 2 * (a + (i:ℚ) * h) ^ 2)
      refine ⟨?_, ih2⟩
      rw [ih1]
      simp only [List.map_cons, List.sum_cons]
      rw [if_neg hm]
      congr 2
      ring

end TuiCalc
namespace TuiCalc

/-- Weighted sum of squares with Simpson weights over 1..2m+1:
the closed form (n-1) n^2 for n = 2m+2. -/
lemma wsumInt : ∀ m : ℕ,
    ((List.range' 1 (2*m+1)).map (fun i : ℕ =>
      (if i % 2 = 1 then (4:ℚ) else 2) * (i:ℚ)^2)).sum =
      (2*(m:ℚ)+1) * (2*(m:ℚ)+2)^2 := by
  intro m
  induction m with
  | zero => norm_num
  | succ mm ih =>
    have h1 : 2*(mm+1)+1 = (2*mm+1) + 1 + 1 := by ring
    rw [h1, List.range'_1_concat, List.range'_1_concat]
    simp only [List.map_append, List.sum_append, List.map_cons, List.map_nil,
      List.sum_cons, List.sum_nil, ih]
    rw [if_neg (by omega : ¬((1 + (2*mm+1)) % 2 = 1)),
      if_pos (by omega : (1 + (2*mm+1+1)) % 2 = 1)]
    push_cast
    ring

lemma map_sum_scale (hq : ℚ) : ∀ l : List ℕ,
    ((l.map (fun i : ℕ =>
        (if i % 2 = 1 then (4:ℚ) else 2) * ((0:ℚ) + (i:ℚ) * hq) ^ 2)).sum)
      = hq^2 * ((l.map (fun i : ℕ =>
        (if i % 2 = 1 then (4:ℚ) else 2) * (i:ℚ)^2)).sum)
  | [] => by simp
  | i :: is => by
    simp only [List.map_cons, List.sum_cons, map_sum_scale hq is]
    ring

/-- Claim C6: the composite Simpson integrator coerces the segment count to
200 when nonpositive and to the next even number when odd (first conjunct,
the coercion as the claim words it); and on the integrand "x^2" over [0,1]
with any even n >= 2 it returns EXACTLY 1/3 (second conjunct; in the exact
rational embedding the floating tolerance of the claim collapses to
equality), for any store in which the variable "x" can be bound. -/
theorem claim_C6 :
    (∀ n : ℤ, simpsonSegN n = if n ≤ 0 then 200 else if n % 2 = 1 then n + 1 else n) ∧
      (∀ (env : EvalEnv) (st : Store) (n : ℕ), canBind st "x" = true → 2 ≤ n →
        n % 2 = 0 →
        (integSimpson env st "x^2" "x" 0 1 (n : ℤ)).1 = .ok (.fin (1/3))) := by
  constructor
  · intro n
    simp only [simpsonSegN]
    by_cases h0 : n ≤ 0
    · rw [if_pos h0, if_pos h0]
      norm_num
    · rw [if_neg h0, if_neg h0]
      have h2 := Int.emod_two_eq_zero_or_one n
      by_cases h1 : n % 2 = 1
      · rw [if_pos (by omega), if_pos h1]
      · rw [if_neg (by omega), if_neg h1]
  · intro env st n hb hn2 hnev
    obtain ⟨m, rfl⟩ : ∃ m, n = 2*m+2 := ⟨(n-2)/2, by omega⟩
    have hN : (simpsonSegN ((2*m+2 : ℕ) : ℤ)).toNat = 2*m+2 := by
      simp only [simpsonSegN]
      rw [if_neg (by omega : ¬(((2*m+2 : ℕ) : ℤ) ≤ 0)),
        if_neg (by omega : ¬(((2*m+2 : ℕ) : ℤ) % 2 ≠ 0))]
      omega
    have hq0 : ((2*m+2 : ℕ) : ℚ) ≠ 0 := by
      push_cast
      positivity
    simp only [integSimpson, hN]
    rw [show (2*m+2-1 : ℕ) = 2*m+1 from by omega]
    obtain ⟨he1, hs1⟩ := evalWithVar_xsq env hb (storeEquiv_refl st) 0
    simp only [he1]
    obtain ⟨hl1, hl2⟩ :=
      simpLoop_xsq env hb 0 ((1 - 0) / ((2*m+2 : ℕ) : ℚ)) (List.range' 1 (2*m+1))
        hs1 ((0:ℚ)^2)
    simp only [hl1]
    obtain ⟨he3, _⟩ := evalWithVar_xsq env hb hl2 1
    simp only [he3]
    simp only [addFP, mulFP, divFP]
    rw [if_neg (by norm_num : ¬((3:ℚ) = 0))]
    rw [map_sum_scale, wsumInt]
    congr 1
    congr 1
    push_cast
    field_simp
    ring

end TuiCalc
namespace TuiCalc

/-- Witness for claim C6 at n = 2 on the initial store. -/
theorem claim_C6_witness :
    (canBind initStore "x" = true) ∧ (2 ≤ 2) ∧ (2 % 2 = 0) ∧
      (integSimpson defaultEnv initStore "x^2" "x" 0 1 ((2:ℕ) : ℤ)).1 =
        .ok (.fin (1/3)) :=
  ⟨by decide, by decide, by decide,
    claim_C6.2 defaultEnv initStore 2 (by decide) (by decide) (by decide)⟩

end TuiCalc
namespace TuiCalc

/-! ## Claim C7: the plot sampler's range finding -/

lemma minFP_eq (q m : ℚ) :
    (if fpLt (FP.fin q) (FP.fin m) = true then FP.fin q else FP.fin m) =
      FP.fin (min m q) := by
  simp only [fpLt, decide_eq_true_eq]
  rcases lt_or_le q m with h | h
  · rw [if_pos h, min_eq_right h.le]
  · rw [if_neg (not_lt.mpr h), min_eq_left h]

lemma maxFP_eq (q M : ℚ) :
    (if fpLt (FP.fin M) (FP.fin q) = true then FP.fin q else FP.fin M) =
      FP.fin (max M q) := by
  simp only [fpLt, decide_eq_true_eq]
  rcases lt_or_le M q with h | h
  · rw [if_pos h, max_eq_right h.le]
  · rw [if_neg (not_lt.mpr h), max_eq_left h]

/-- The range-finding pass equals the min/max folds over exactly the finite
successful samples: failed evaluations and non-finite values are ignored. -/
lemma rangeLoop_spec (env : EvalEnv) {st : Store} (e v : String)
    (hv : v.length ≤ 15) : ∀ (xs : List ℚ) {st2 : Store}, storeEquiv st2 st →
    ∀ (m M : ℚ),
    rangeLoop env e v xs st2 (.fin m) (.fin M) =
      (.fin ((finSamples env st e v xs).foldl min m),
       .fin ((finSamples env st e v xs).foldl max M)) := by
  intro xs
  induction xs with
  | nil =>
    intro st2 hst m M
    simp [rangeLoop, finSamples]
  | cons x xs ih =>
    intro st2 hst m M
    obtain ⟨he, hs⟩ := evalWithVar_stable env e v (.fin x) hv hst
    simp only [rangeLoop, finSamples, he]
    cases (evalWithVar env st e v (.fin x)).1 with
    | error er => exact ih hs m M
    | ok y =>
      cases y with
      | fin q =>
        simp only [isFiniteF, if_pos rfl, List.foldl_cons]
        rw [minFP_eq, maxFP_eq]
        exact ih hs (min m q) (max M q)
      | nan =>
        simp only [isFiniteF, Bool.false_eq_true, if_false]
        exact ih hs m M

/-- Claim C7 as amended: in the range-finding pass, failed and non-finite
samples are ignored (the observed range is the min/max fold of exactly the
finite successful samples, seeded with the sentinels 1e300 and -1e300), and
the range is padded by one on each side EXACTLY when the observed ymin
equals the observed ymax.  In particular, when no finite samples exist the
result is the unpadded inverted sentinel pair (1e300, -1e300): the
non-finiteness disjunct of the C padding guard can never fire, because the
sentinels are themselves finite doubles. -/
theorem claim_C7_amended (env : EvalEnv) (st : Store) (e v : String)
    (xmin xmax : ℚ) (W : ℤ) (hv : v.length ≤ 15) :
    plotRange env st e v xmin xmax W =
      (let qs := finSamples env st e v (plotXs xmin xmax W)
       let m := qs.foldl min ((10:ℚ)^300)
       let M := qs.foldl max (-((10:ℚ)^300))
       if m = M then (.fin (m - 1), .fin (M + 1)) else (.fin m, .fin M)) := by
  simp only [plotRange]
  rw [rangeLoop_spec env e v hv _ (storeEquiv_refl st)]
  simp only [isFiniteF, Bool.and_self, Bool.not_true, Bool.false_or, fpEq,
    subFP, addFP]
  by_cases hm : (finSamples env st e v (plotXs xmin xmax W)).foldl min ((10:ℚ)^300) =
      (finSamples env st e v (plotXs xmin xmax W)).foldl max (-((10:ℚ)^300))
  · rw [if_pos (by simp [hm]), if_pos hm]
  · rw [if_neg (by simp [hm]), if_neg hm]

set_option maxRecDepth 8000 in
set_option exponentiation.threshold 400 in
/-- Claim C7, counterexample: with the integrand "1/0" every sample fails,
so no finite samples exist — yet the resulting range is the UNPADDED
sentinel pair (1e300, -1e300), not a range padded by one on each side, and
the two differ; this refutes the claim that the no-finite-sample case is
padded. -/
theorem claim_C7_counterexample :
    finSamples defaultEnv initStore "1/0" "x" (plotXs 0 1 2) = [] ∧
      plotRange defaultEnv initStore "1/0" "x" 0 1 2 =
        (.fin ((10:ℚ)^300), .fin (-((10:ℚ)^300))) ∧
      (FP.fin ((10:ℚ)^300), FP.fin (-((10:ℚ)^300))) ≠
        (FP.fin ((10:ℚ)^300 - 1), FP.fin (-((10:ℚ)^300) + 1)) :=
  ⟨by decide, by decide, by decide⟩

set_option maxRecDepth 8000 in
set_option exponentiation.threshold 400 in
/-- Witness for the amended claim C7 at a concrete call. -/
theorem claim_C7_witness :
    ("x".length ≤ 15) ∧
      plotRange defaultEnv initStore "x" "x" 0 1 2 =
        (let qs := finSamples defaultEnv initStore "x" "x" (plotXs 0 1 2)
         let m := qs.foldl min ((10:ℚ)^300)
         let M := qs.foldl max (-((10:ℚ)^300))
         if m = M then (.fin (m - 1), .fin (M + 1)) else (.fin m, .fin M)) :=
  ⟨by decide, claim_C7_amended defaultEnv initStore "x" "x" 0 1 2 (by decide)⟩

end TuiCalc
